import Mathlib

/-!
# Chunked parallel zlib codec (`task-2.cpp`)

A shallow embedding of `src/task-2.cpp`: the chunking loop, the per-chunk
codec wrappers around zlib, the thread fan-out, the length-prefixed frame
writer and reader, and the `main` driver, followed by the properties the
specification states about them.

Modelling conventions.

* A `char` is a `Byte` (`Fin 256`); a `std::vector<char>` is a `List Byte`.
* A `std::ifstream` is the list of bytes not yet extracted together with its
  `eofbit`, `failbit` and `gcount`; files are assumed to exist and to open.
* `uint32_t` arithmetic is `Nat` arithmetic modulo `2 ^ 32`; the four bytes of
  a `uint32_t` in memory are little-endian (the platform the program targets).
* zlib is an external library. Its stream encoder and decoder are parameters
  (`Zlib.deflate`, `Zlib.inflate`); `compress` and `uncompress` follow the
  contract of `zlib.h` over them.
* Each worker thread runs its whole body once; a schedule is the order in which
  the thread bodies run. An exception leaving a thread body calls
  `std::terminate`, which ends the process.
* The two `while (!in.eof())` loops carry fuel: one unit per evaluation of the
  loop condition.
-/

namespace Task2

/-- One `char` of a buffer or file. -/
abbrev Byte := Fin 256

/-- The constant `const int CHUNK_SIZE = 1024 * 1024`. -/
def CHUNK_SIZE : Nat := 1024 * 1024

/-! ## Buffers -/

/-- The vector `std::vector<char> v(n)`: `n` value-initialised (zero) bytes. -/
def zeros (n : Nat) : List Byte := List.replicate n 0

/-- Storing the bytes `src` at the start of the buffer `buf`; the rest of the buffer keeps
its contents. -/
def store (buf src : List Byte) : List Byte := src ++ buf.drop src.length

/-- The call `v.resize(n)`: truncates, or appends zero bytes. -/
def resize (v : List Byte) (n : Nat) : List Byte := v.take n ++ zeros (n - v.length)

/-! ## Input streams -/

/-- State of a `std::ifstream` opened in binary mode. -/
structure IfStream where
  /-- Bytes of the file that have not been extracted yet. -/
  data : List Byte
  eofbit : Bool
  failbit : Bool
  /-- Number of bytes extracted by the last unformatted read. -/
  gcount : Nat
deriving DecidableEq

/-- A stream just opened on a file with the given contents. -/
def IfStream.opened (file : List Byte) : IfStream :=
  { data := file, eofbit := false, failbit := false, gcount := 0 }

/-- The test `good()`: no error bit is set. -/
def IfStream.good (s : IfStream) : Bool := !s.eofbit && !s.failbit

/-- The test `eof()`. -/
def IfStream.eof (s : IfStream) : Bool := s.eofbit

/-- The call `read(buf, n)`: returns the new stream state and the bytes extracted (which the
caller stores at the start of `buf`). When the stream is not good nothing is extracted and
`failbit` is set; when fewer than `n` bytes are left they are all extracted and both `eofbit`
and `failbit` are set. -/
def IfStream.read (s : IfStream) (n : Nat) : IfStream × List Byte :=
  if s.good then
    let got := s.data.take n
    if got.length = n then
      ({ s with data := s.data.drop n, gcount := n }, got)
    else
      ({ data := s.data.drop n, eofbit := true, failbit := true, gcount := got.length }, got)
  else
    ({ s with failbit := true, gcount := 0 }, [])

/-! ## zlib -/

/-- The zlib library: the bound function and the stream encoder and decoder behind
`compress` and `uncompress`. `deflate` is `none` when the encoder cannot run (`Z_MEM_ERROR`),
`inflate` is `none` when the input is corrupted or incomplete (`Z_DATA_ERROR`). -/
structure Zlib where
  compressBound : Nat → Nat
  deflate : List Byte → Option (List Byte)
  inflate : List Byte → Option (List Byte)

/-- Status `Z_OK` of `zlib.h`. -/
def Z_OK : Int := 0

/-- Status `Z_DATA_ERROR` of `zlib.h`. -/
def Z_DATA_ERROR : Int := -3

/-- Status `Z_MEM_ERROR` of `zlib.h`. -/
def Z_MEM_ERROR : Int := -4

/-- Status `Z_BUF_ERROR` of `zlib.h`. -/
def Z_BUF_ERROR : Int := -5

/-- The call `compress(dest, &destLen, source, sourceLen)` on a destination of `destLen` bytes:
the status and the bytes produced. On `Z_OK` the produced bytes are stored at the start of
`dest` and `destLen` becomes their number. -/
def Zlib.compress (z : Zlib) (destLen : Nat) (source : List Byte) : Int × List Byte :=
  match z.deflate source with
  | none => (Z_MEM_ERROR, [])
  | some out => if out.length ≤ destLen then (Z_OK, out) else (Z_BUF_ERROR, [])

/-- The call `uncompress(dest, &destLen, source, sourceLen)` on a destination of `destLen`
bytes: the status and the bytes produced. On `Z_OK` the produced bytes are stored at the start
of `dest` and `destLen` becomes their number; when the decoded data does not fit the status is
`Z_BUF_ERROR` and the destination is filled with the data up to that point. -/
def Zlib.uncompress (z : Zlib) (destLen : Nat) (source : List Byte) : Int × List Byte :=
  match z.inflate source with
  | none => (Z_DATA_ERROR, [])
  | some out => if out.length ≤ destLen then (Z_OK, out) else (Z_BUF_ERROR, out.take destLen)

/-! ## Per-chunk codec -/

/-- The two `std::runtime_error`s the program throws. -/
inductive RuntimeError where
  /-- The message "Compression failed.". -/
  | compressionFailed
  /-- The message "Decompression failed.". -/
  | decompressionFailed
deriving DecidableEq

/-- The function `compressChunk`. -/
def compressChunk (z : Zlib) (input : List Byte) : Except RuntimeError (List Byte) :=
  let srcLen := input.length
  let destLen := z.compressBound srcLen
  let output := zeros destLen
  let (rc, produced) := z.compress destLen input
  if rc ≠ Z_OK then
    .error .compressionFailed
  else
    let output := store output produced
    let destLen := produced.length
    .ok (resize output destLen)

/-- The function `decompressChunk`. The value `uncompress` leaves in `originalSize` is not
looked at and the output keeps the size it was created with. -/
def decompressChunk (z : Zlib) (input : List Byte) (originalSize : Nat) :
    Except RuntimeError (List Byte) :=
  let output := zeros originalSize
  let (rc, produced) := z.uncompress originalSize input
  if rc ≠ Z_OK then
    .error .decompressionFailed
  else
    let output := store output produced
    .ok output

/-! ## Thread fan-out -/

/-- The worker threads of one fan-out, run in the order given by the schedule: thread `i`
evaluates `task i` and, under the mutex, assigns the result to slot `i`. The first exception
ends the run. -/
def runThreads (task : Nat → Except RuntimeError (List Byte)) :
    List Nat → List (List Byte) → Except RuntimeError (List (List Byte))
  | [], slots => .ok slots
  | i :: rest, slots =>
    match task i with
    | .error e => .error e
    | .ok r => runThreads task rest (slots.set i r)

/-- Fan-out of `compressFile` (lines 50 to 65): `compressedChunks` is resized to the number of
chunks and thread `i` stores `compressChunk(chunks[i])` in slot `i`. -/
def compressFanOut (z : Zlib) (order : List Nat) (chunks : List (List Byte)) :
    Except RuntimeError (List (List Byte)) :=
  let compressedChunks : List (List Byte) := List.replicate chunks.length []
  runThreads (fun i => compressChunk z (chunks.getD i [])) order compressedChunks

/-- Fan-out of `decompressFile` (lines 85 and 98 to 109): `decompressedChunks` has one slot per
original size, there is one thread per compressed chunk, and thread `i` stores
`decompressChunk(compressedChunks[i], originalSizes[i])` in slot `i`. -/
def decompressFanOut (z : Zlib) (order : List Nat) (compressedChunks : List (List Byte))
    (originalSizes : List Nat) : Except RuntimeError (List (List Byte)) :=
  let decompressedChunks : List (List Byte) := List.replicate originalSizes.length []
  runThreads (fun i => decompressChunk z (compressedChunks.getD i []) (originalSizes.getD i 0))
    order decompressedChunks

/-! ## Frames -/

/-- The four bytes of a `uint32_t` in memory, least significant first. -/
def bytesOfU32 (w : Nat) : List Byte :=
  [Fin.ofNat w, Fin.ofNat (w / 256), Fin.ofNat (w / 65536), Fin.ofNat (w / 16777216)]

/-- The `uint32_t` whose memory holds the given four bytes. -/
def u32OfBytes (bs : List Byte) : Nat :=
  (bs.getD 0 0).val + 256 * (bs.getD 1 0).val + 65536 * (bs.getD 2 0).val
    + 16777216 * (bs.getD 3 0).val

/-- Frame writer of `compressFile` (lines 67 to 71), appending to the bytes written so far. -/
def writeFrames (outFile : List Byte) : List (List Byte) → List Byte
  | [] => outFile
  | chunk :: rest =>
    let chunkSize := chunk.length % 2 ^ 32
    let outFile := outFile ++ bytesOfU32 chunkSize
    let outFile := outFile ++ chunk.take chunkSize
    writeFrames outFile rest

/-- Frame reader of `decompressFile` (lines 87 to 94): iteration `i` with `n` iterations left.
The local `chunkSize` is not initialised; `uninit i` is the value its memory holds when
iteration `i` starts. No stream state is tested. -/
def readFrames (uninit : Nat → Nat) :
    Nat → Nat → IfStream → List (List Byte) → IfStream × List (List Byte)
  | _, 0, inFile, compressedChunks => (inFile, compressedChunks)
  | i, n + 1, inFile, compressedChunks =>
    let chunkSize := bytesOfU32 (uninit i % 2 ^ 32)
    let (inFile, got) := inFile.read 4
    let chunkSize := u32OfBytes (store chunkSize got)
    let buffer := zeros chunkSize
    let (inFile, got) := inFile.read chunkSize
    let buffer := store buffer got
    readFrames uninit (i + 1) n inFile (compressedChunks ++ [buffer])

/-- Output loop of `decompressFile` (lines 111 to 113). -/
def writeChunks (outFile : List Byte) : List (List Byte) → List Byte
  | [] => outFile
  | chunk :: rest => writeChunks (outFile ++ chunk) rest

/-! ## File operations -/

/-- Chunking loop of `compressFile` (lines 43 to 48). `none` when the fuel runs out. -/
def readChunks : Nat → IfStream → List (List Byte) → Option (List (List Byte))
  | 0, _, _ => none
  | fuel + 1, inFile, chunks =>
    if inFile.eof then some chunks
    else
      let buffer := zeros CHUNK_SIZE
      let (inFile, got) := inFile.read CHUNK_SIZE
      let buffer := store buffer got
      let buffer := resize buffer inFile.gcount
      readChunks fuel inFile (chunks ++ [buffer])

/-- How a call ended: it returned, or a thread threw and `std::terminate` ended the process. -/
inductive Exit where
  | returned
  | terminated (e : RuntimeError)
deriving DecidableEq

/-- What a file operation leaves behind: the bytes written to its output file and how it
ended. -/
structure Run where
  outFile : List Byte
  exit : Exit
deriving DecidableEq

/-- The function `compressFile` on an input file with the given contents. The schedule
`sched n` is the order in which the `n` threads run. `none` when the fuel runs out. -/
def compressFile (z : Zlib) (sched : Nat → List Nat) (fuel : Nat) (input : List Byte) :
    Option Run :=
  match readChunks fuel (IfStream.opened input) [] with
  | none => none
  | some chunks =>
    match compressFanOut z (sched chunks.length) chunks with
    | .error e => some { outFile := [], exit := .terminated e }
    | .ok compressedChunks =>
      some { outFile := writeFrames [] compressedChunks, exit := .returned }

/-- The function `decompressFile` on an input file with the given contents. -/
def decompressFile (z : Zlib) (uninit : Nat → Nat) (sched : Nat → List Nat)
    (input : List Byte) (originalSizes : List Nat) : Run :=
  let (_, compressedChunks) :=
    readFrames uninit 0 originalSizes.length (IfStream.opened input) []
  match decompressFanOut z (sched compressedChunks.length) compressedChunks originalSizes with
  | .error e => { outFile := [], exit := .terminated e }
  | .ok decompressedChunks => { outFile := writeChunks [] decompressedChunks, exit := .returned }

/-- Size loop of `main` (lines 129 to 137); the buffer it reads into is never looked at, only
`gcount`. `none` when the fuel runs out. -/
def readSizes : Nat → IfStream → List Nat → Option (List Nat)
  | 0, _, _ => none
  | fuel + 1, inp, originalSizes =>
    if inp.eof then some originalSizes
    else
      let (inp, _) := inp.read CHUNK_SIZE
      let readSize := inp.gcount
      if readSize = 0 then some originalSizes
      else readSizes fuel inp (originalSizes ++ [readSize])

/-- The function `main` on an `input.txt` with the given contents: the run of `compressFile`
(its output file is `compressed.dat`) and, when that returned, the run of `decompressFile` on
`compressed.dat` (its output file is `decompressed.txt`). `none` when the fuel runs out. -/
def main (z : Zlib) (uninit : Nat → Nat) (schedC schedD : Nat → List Nat) (fuel : Nat)
    (input : List Byte) : Option (Run × Option Run) :=
  match readSizes fuel (IfStream.opened input) [] with
  | none => none
  | some originalSizes =>
    match compressFile z schedC fuel input with
    | none => none
    | some c =>
      match c.exit with
      | .terminated _ => some (c, none)
      | .returned => some (c, some (decompressFile z uninit schedD c.outFile originalSizes))

/-! ## Descriptions used in the statements and proofs -/

/-- Chunks of a file: `k` blocks of `CHUNK_SIZE` bytes, then whatever is left. -/
def chunkList : Nat → List Byte → List (List Byte)
  | 0, d => [d]
  | k + 1, d => d.take CHUNK_SIZE :: chunkList k (d.drop CHUNK_SIZE)

/-- Sizes `main` records for a file of `L` bytes with `k` full blocks: `k` times `CHUNK_SIZE`,
then the size of what is left unless nothing is left. -/
def sizeList : Nat → Nat → List Nat
  | 0, r => if r = 0 then [] else [r]
  | k + 1, L => CHUNK_SIZE :: sizeList k (L - CHUNK_SIZE)

/-- Bytes the writer emits for one compressed chunk. -/
def frame (chunk : List Byte) : List Byte :=
  bytesOfU32 (chunk.length % 2 ^ 32) ++ chunk.take (chunk.length % 2 ^ 32)

/-- The vector a task produced, or the empty vector when it threw. -/
def okOr (x : Except RuntimeError (List Byte)) : List Byte :=
  match x with
  | .ok r => r
  | .error _ => []

/-- One iteration of the frame reader: the stream after it and the buffer it appends. -/
def frameStep (uninit : Nat → Nat) (i : Nat) (s : IfStream) : IfStream × List Byte :=
  let size := u32OfBytes (store (bytesOfU32 (uninit i % 2 ^ 32)) (s.read 4).2)
  (((s.read 4).1.read size).1, store (zeros size) ((s.read 4).1.read size).2)

/-- A toy zlib whose bound is too small: `compress` fails on every non-empty input. -/
def tightZlib : Zlib :=
  { compressBound := fun _ => 0, deflate := fun x => some x, inflate := fun x => some x }

/-- The compressed chunk `compressChunk` returns, or the empty vector when it throws. -/
def cchunk (z : Zlib) (x : List Byte) : List Byte := okOr (compressChunk z x)

/-- A toy zlib whose streams are the data itself (no expansion), used for concrete runs. -/
def storedZlib : Zlib :=
  { compressBound := fun n => n, deflate := fun x => some x, inflate := fun x => some x }

/-! ## Buffer and stream lemmas -/

theorem CHUNK_SIZE_pos : 0 < CHUNK_SIZE := by decide

@[simp] theorem zeros_length (n : Nat) : (zeros n).length = n := by simp [zeros]

theorem store_zeros (n : Nat) (d : List Byte) :
    store (zeros n) d = d ++ zeros (n - d.length) := by
  simp [store, zeros]

theorem resize_store_zeros (n : Nat) (d : List Byte) :
    resize (store (zeros n) d) d.length = d := by
  simp [resize, store, zeros]

theorem read_full (d : List Byte) (g n : Nat) (h : n ≤ d.length) :
    IfStream.read { data := d, eofbit := false, failbit := false, gcount := g } n
      = ({ data := d.drop n, eofbit := false, failbit := false, gcount := n }, d.take n) := by
  simp [IfStream.read, IfStream.good, h]

theorem read_short (d : List Byte) (g n : Nat) (h : d.length < n) :
    IfStream.read { data := d, eofbit := false, failbit := false, gcount := g } n
      = ({ data := [], eofbit := true, failbit := true, gcount := d.length }, d) := by
  have h1 : min n d.length = d.length := by omega
  have h2 : d.length ≠ n := by omega
  have h3 : d.length ≤ n := by omega
  simp [IfStream.read, IfStream.good, h1, h2, List.take_of_length_le h3, List.drop_of_length_le h3]

theorem div_chunk_lt {L : Nat} (h : L < CHUNK_SIZE) : L / CHUNK_SIZE = 0 :=
  Nat.div_eq_of_lt h

theorem div_chunk_ge {L : Nat} (h : CHUNK_SIZE ≤ L) :
    L / CHUNK_SIZE = (L - CHUNK_SIZE) / CHUNK_SIZE + 1 := by
  rw [Nat.div_eq L CHUNK_SIZE, if_pos ⟨CHUNK_SIZE_pos, h⟩]

theorem readChunks_short (f : Nat) (d : List Byte) (g : Nat) (acc : List (List Byte))
    (hlt : d.length < CHUNK_SIZE) :
    readChunks (f + 2) { data := d, eofbit := false, failbit := false, gcount := g } acc
      = some (acc ++ [d]) := by
  simp [readChunks, IfStream.eof, read_short d g CHUNK_SIZE hlt, resize_store_zeros]

theorem readChunks_full (fuel : Nat) (d : List Byte) (g : Nat) (acc : List (List Byte))
    (hge : CHUNK_SIZE ≤ d.length) :
    readChunks (fuel + 1) { data := d, eofbit := false, failbit := false, gcount := g } acc
      = readChunks fuel
          { data := d.drop CHUNK_SIZE, eofbit := false, failbit := false, gcount := CHUNK_SIZE }
          (acc ++ [d.take CHUNK_SIZE]) := by
  have hlen : (d.take CHUNK_SIZE).length = CHUNK_SIZE := by simp [hge]
  have hbuf : resize (store (zeros CHUNK_SIZE) (d.take CHUNK_SIZE)) CHUNK_SIZE
      = d.take CHUNK_SIZE := by
    have := resize_store_zeros CHUNK_SIZE (d.take CHUNK_SIZE)
    rwa [hlen] at this
  rw [readChunks]
  simp only [IfStream.eof, read_full d g CHUNK_SIZE hge, hbuf]
  simp

theorem readChunks_eq (fuel : Nat) : ∀ (d : List Byte) (g : Nat) (acc : List (List Byte)),
    d.length / CHUNK_SIZE + 2 ≤ fuel →
    readChunks fuel { data := d, eofbit := false, failbit := false, gcount := g } acc
      = some (acc ++ chunkList (d.length / CHUNK_SIZE) d) := by
  induction fuel with
  | zero => intro d g acc h; exact absurd h (by simp)
  | succ fuel ih =>
    intro d g acc h
    by_cases hlt : d.length < CHUNK_SIZE
    · obtain ⟨f, rfl⟩ : ∃ f, fuel = f + 1 := by
        generalize d.length / CHUNK_SIZE = k at h
        exact ⟨fuel - 1, by omega⟩
      rw [readChunks_short f d g acc hlt, div_chunk_lt hlt]
      rfl
    · have hge : CHUNK_SIZE ≤ d.length := by omega
      have hdiv := div_chunk_ge hge
      have hfuel : (d.drop CHUNK_SIZE).length / CHUNK_SIZE + 2 ≤ fuel := by
        rw [List.length_drop]
        generalize (d.length - CHUNK_SIZE) / CHUNK_SIZE = k at hdiv
        omega
      rw [readChunks_full fuel d g acc hge, ih _ _ _ hfuel, hdiv, List.length_drop, chunkList,
        List.append_assoc]
      rfl

/-! ## The chunk list -/

theorem chunkList_length (k : Nat) : ∀ d : List Byte, (chunkList k d).length = k + 1 := by
  induction k with
  | zero => intro d; rfl
  | succ k ih => intro d; simp [chunkList, ih]

theorem chunkList_flatten (k : Nat) : ∀ d : List Byte, (chunkList k d).flatten = d := by
  induction k with
  | zero => intro d; simp [chunkList]
  | succ k ih => intro d; simp [chunkList, ih]

theorem chunkList_getElem? (k : Nat) : ∀ (d : List Byte) (i : Nat), i < k →
    (chunkList k d)[i]? = some ((d.drop (i * CHUNK_SIZE)).take CHUNK_SIZE) := by
  induction k with
  | zero => intro d i h; omega
  | succ k ih =>
    intro d i h
    cases i with
    | zero => simp [chunkList]
    | succ i =>
      have hi : i < k := by omega
      simp only [chunkList, List.getElem?_cons_succ, ih _ i hi, List.drop_drop]
      rw [Nat.succ_mul, Nat.add_comm CHUNK_SIZE]

theorem chunkList_getElem?_last (k : Nat) : ∀ d : List Byte,
    (chunkList k d)[k]? = some (d.drop (k * CHUNK_SIZE)) := by
  induction k with
  | zero => intro d; simp [chunkList]
  | succ k ih =>
    intro d
    simp only [chunkList, List.getElem?_cons_succ, ih, List.drop_drop]
    rw [Nat.succ_mul, Nat.add_comm CHUNK_SIZE]

theorem mul_div_chunk_le (L : Nat) : L / CHUNK_SIZE * CHUNK_SIZE ≤ L :=
  Nat.div_mul_le_self L CHUNK_SIZE

theorem lt_div_chunk_succ_mul (L : Nat) : L < (L / CHUNK_SIZE + 1) * CHUNK_SIZE := by
  have h := Nat.lt_div_mul_add (a := L) CHUNK_SIZE_pos
  rw [Nat.succ_mul]
  exact h

/-- Every slot of the chunk list of a file is the slice of the file at its offset. -/
theorem chunkList_slice (d : List Byte) (i : Nat) (h : i < d.length / CHUNK_SIZE + 1) :
    (chunkList (d.length / CHUNK_SIZE) d)[i]?
      = some ((d.drop (i * CHUNK_SIZE)).take CHUNK_SIZE) := by
  by_cases hi : i < d.length / CHUNK_SIZE
  · exact chunkList_getElem? _ d i hi
  · have hik : i = d.length / CHUNK_SIZE := by omega
    subst hik
    rw [chunkList_getElem?_last]
    have h1 := lt_div_chunk_succ_mul d.length
    rw [Nat.succ_mul] at h1
    rw [List.take_of_length_le]
    rw [List.length_drop]
    omega

/-! ## The size list of `main` -/

theorem readSizes_short (f : Nat) (d : List Byte) (g : Nat) (acc : List Nat)
    (hlt : d.length < CHUNK_SIZE) :
    readSizes (f + 2) { data := d, eofbit := false, failbit := false, gcount := g } acc
      = some (acc ++ sizeList 0 d.length) := by
  by_cases h0 : d.length = 0
  · simp [readSizes, IfStream.eof, read_short d g CHUNK_SIZE hlt, sizeList, h0]
  · simp [readSizes, IfStream.eof, read_short d g CHUNK_SIZE hlt, sizeList, h0]

theorem readSizes_full (fuel : Nat) (d : List Byte) (g : Nat) (acc : List Nat)
    (hge : CHUNK_SIZE ≤ d.length) :
    readSizes (fuel + 1) { data := d, eofbit := false, failbit := false, gcount := g } acc
      = readSizes fuel
          { data := d.drop CHUNK_SIZE, eofbit := false, failbit := false, gcount := CHUNK_SIZE }
          (acc ++ [CHUNK_SIZE]) := by
  have hne : CHUNK_SIZE ≠ 0 := Nat.pos_iff_ne_zero.mp CHUNK_SIZE_pos
  rw [readSizes]
  simp only [IfStream.eof, read_full d g CHUNK_SIZE hge]
  simp [hne]

theorem readSizes_eq (fuel : Nat) : ∀ (d : List Byte) (g : Nat) (acc : List Nat),
    d.length / CHUNK_SIZE + 2 ≤ fuel →
    readSizes fuel { data := d, eofbit := false, failbit := false, gcount := g } acc
      = some (acc ++ sizeList (d.length / CHUNK_SIZE) d.length) := by
  induction fuel with
  | zero => intro d g acc h; exact absurd h (by simp)
  | succ fuel ih =>
    intro d g acc h
    by_cases hlt : d.length < CHUNK_SIZE
    · obtain ⟨f, rfl⟩ : ∃ f, fuel = f + 1 := by
        generalize d.length / CHUNK_SIZE = k at h
        exact ⟨fuel - 1, by omega⟩
      rw [readSizes_short f d g acc hlt, div_chunk_lt hlt]
    · have hge : CHUNK_SIZE ≤ d.length := by omega
      have hdiv := div_chunk_ge hge
      have hfuel : (d.drop CHUNK_SIZE).length / CHUNK_SIZE + 2 ≤ fuel := by
        rw [List.length_drop]
        generalize (d.length - CHUNK_SIZE) / CHUNK_SIZE = k at hdiv
        omega
      rw [readSizes_full fuel d g acc hge, ih _ _ _ hfuel, hdiv, List.length_drop, sizeList,
        List.append_assoc]
      rfl

/-- The sizes `main` records are the lengths of the first chunks of the chunk list, as many as
there are sizes, and those chunks make up the whole file. -/
theorem sizeList_chunkList (k : Nat) : ∀ d : List Byte, d.length / CHUNK_SIZE = k →
    sizeList k d.length
        = ((chunkList k d).take (sizeList k d.length).length).map List.length ∧
      ((chunkList k d).take (sizeList k d.length).length).flatten = d := by
  induction k with
  | zero =>
    intro d _
    by_cases h0 : d.length = 0
    · have : d = [] := List.length_eq_zero.mp h0
      subst this
      simp [sizeList, chunkList]
    · simp [sizeList, chunkList, h0]
  | succ k ih =>
    intro d hk
    have hge : CHUNK_SIZE ≤ d.length := by
      by_contra hlt
      rw [div_chunk_lt (by omega)] at hk
      omega
    have hk2 : (d.drop CHUNK_SIZE).length / CHUNK_SIZE = k := by
      have h := div_chunk_ge hge
      rw [hk] at h
      rw [List.length_drop]
      exact (Nat.succ_injective h).symm
    obtain ⟨h1, h2⟩ := ih (d.drop CHUNK_SIZE) hk2
    rw [List.length_drop] at h1 h2
    have hmin : min CHUNK_SIZE d.length = CHUNK_SIZE := by omega
    constructor
    · simp only [sizeList, chunkList, List.length_cons, List.take_succ_cons, List.map_cons,
        List.length_take, hmin]
      rw [← h1]
    · simp only [sizeList, chunkList, List.length_cons, List.take_succ_cons, List.flatten_cons,
        h2, List.take_append_drop]

theorem ceil_chunk (L : Nat) :
    (L + CHUNK_SIZE - 1) / CHUNK_SIZE
      = if L % CHUNK_SIZE = 0 then L / CHUNK_SIZE else L / CHUNK_SIZE + 1 := by
  simp only [CHUNK_SIZE]
  split <;> omega

theorem sizeList_length (k : Nat) : ∀ L : Nat, L / CHUNK_SIZE = k →
    (sizeList k L).length = if L % CHUNK_SIZE = 0 then k else k + 1 := by
  induction k with
  | zero =>
    intro L hk
    have hlt : L < CHUNK_SIZE := by
      by_contra hge
      have h := div_chunk_ge (L := L) (by omega)
      rw [hk] at h
      exact Nat.succ_ne_zero _ h.symm
    rw [Nat.mod_eq_of_lt hlt]
    by_cases h0 : L = 0 <;> simp [sizeList, h0]
  | succ k ih =>
    intro L hk
    have hge : CHUNK_SIZE ≤ L := by
      by_contra hlt
      rw [div_chunk_lt (by omega)] at hk
      omega
    have hk2 : (L - CHUNK_SIZE) / CHUNK_SIZE = k := by
      have h := div_chunk_ge hge
      rw [hk] at h
      exact (Nat.succ_injective h).symm
    have hmod : L % CHUNK_SIZE = (L - CHUNK_SIZE) % CHUNK_SIZE := Nat.mod_eq_sub_mod hge
    simp only [sizeList, List.length_cons, ih _ hk2, hmod]
    split <;> rfl

/-! ## Fan-out -/

theorem runThreads_ok (task : Nat → Except RuntimeError (List Byte)) (g : Nat → List Byte) :
    ∀ (order : List Nat) (slots : List (List Byte)),
      (∀ i ∈ order, task i = .ok (g i)) →
      runThreads task order slots = .ok (order.foldl (fun s i => s.set i (g i)) slots) := by
  intro order
  induction order with
  | nil => intro slots _; rfl
  | cons i rest ih =>
    intro slots h
    have hi : task i = .ok (g i) := h i (List.mem_cons_self i rest)
    simp only [runThreads, hi, List.foldl_cons]
    exact ih _ (fun j hj => h j (List.mem_cons_of_mem i hj))

theorem foldl_set_length (g : Nat → List Byte) : ∀ (order : List Nat) (slots : List (List Byte)),
    (order.foldl (fun s i => s.set i (g i)) slots).length = slots.length := by
  intro order
  induction order with
  | nil => intro slots; rfl
  | cons i rest ih => intro slots; simp [List.foldl_cons, ih]

theorem foldl_set_getElem? (g : Nat → List Byte) :
    ∀ (order : List Nat) (slots : List (List Byte)) (j : Nat), j < slots.length →
      (j ∈ order ∨ slots[j]? = some (g j)) →
      (order.foldl (fun s i => s.set i (g i)) slots)[j]? = some (g j) := by
  intro order
  induction order with
  | nil =>
    intro slots j _ h
    rcases h with h | h
    · exact absurd h (List.not_mem_nil j)
    · exact h
  | cons i rest ih =>
    intro slots j hj h
    rw [List.foldl_cons]
    apply ih _ j (by simpa using hj)
    by_cases hji : i = j
    · right
      subst hji
      simp [List.getElem?_set, hj]
    · rcases h with h | h
      · rcases List.mem_cons.mp h with h | h
        · exact absurd h.symm hji
        · exact Or.inl h
      · right
        simp [List.getElem?_set, hji, h]

/-- Slot-by-index result of a fan-out: when the schedule is a permutation of the thread indices
and every task succeeds, the slots end up holding the task results in index order. -/
theorem runThreads_perm (task : Nat → Except RuntimeError (List Byte)) (order : List Nat)
    (slots results : List (List Byte)) (hp : order.Perm (List.range slots.length))
    (hlen : results.length = slots.length)
    (hres : ∀ i, i < slots.length → task i = .ok (results.getD i [])) :
    runThreads task order slots = .ok results := by
  have hmem : ∀ i, i ∈ order ↔ i < slots.length := fun i => by
    rw [hp.mem_iff, List.mem_range]
  rw [runThreads_ok task (fun i => results.getD i []) order slots
    (fun i hi => hres i ((hmem i).mp hi))]
  congr 1
  apply List.ext_getElem?
  intro j
  by_cases hj : j < slots.length
  · rw [foldl_set_getElem? _ order slots j hj (Or.inl ((hmem j).mpr hj))]
    have hj2 : j < results.length := by omega
    simp [List.getD_eq_getElem?_getD, List.getElem?_eq_getElem hj2]
  · rw [List.getElem?_eq_none (by rw [foldl_set_length]; omega),
      List.getElem?_eq_none (by omega)]

/-- A failing task fails the fan-out: the run ends with the exception of one of the tasks. -/
theorem runThreads_error (task : Nat → Except RuntimeError (List Byte)) :
    ∀ (order : List Nat) (slots : List (List Byte)),
      (∃ i ∈ order, ∃ e, task i = .error e) →
      ∃ j e, task j = .error e ∧ runThreads task order slots = .error e := by
  intro order
  induction order with
  | nil =>
    intro slots h
    obtain ⟨i, hi, _⟩ := h
    exact absurd hi (List.not_mem_nil i)
  | cons i rest ih =>
    intro slots h
    cases hti : task i with
    | error e => exact ⟨i, e, hti, by simp [runThreads, hti]⟩
    | ok r =>
      simp only [runThreads, hti]
      apply ih
      obtain ⟨j, hj, e, he⟩ := h
      rcases List.mem_cons.mp hj with hji | hjr
      · subst hji
        rw [hti] at he
        cases he
      · exact ⟨j, hjr, e, he⟩

/-! ## Frames -/

theorem bytesOfU32_length (w : Nat) : (bytesOfU32 w).length = 4 := rfl

theorem u32OfBytes_bytesOfU32 (w : Nat) (h : w < 2 ^ 32) : u32OfBytes (bytesOfU32 w) = w := by
  simp only [u32OfBytes, bytesOfU32, List.getD_cons_zero, List.getD_cons_succ, Fin.ofNat]
  omega

theorem store_same_length (buf src : List Byte) (h : buf.length = src.length) :
    store buf src = src := by
  simp [store, ← h]

theorem frame_of_lt (chunk : List Byte) (h : chunk.length < 2 ^ 32) :
    frame chunk = bytesOfU32 chunk.length ++ chunk := by
  rw [frame, Nat.mod_eq_of_lt h, List.take_length]

theorem writeFrames_eq : ∀ (chunks : List (List Byte)) (outFile : List Byte),
    writeFrames outFile chunks = outFile ++ (chunks.map frame).flatten := by
  intro chunks
  induction chunks with
  | nil => intro outFile; simp [writeFrames]
  | cons c rest ih => intro outFile; simp [writeFrames, ih, frame]

theorem writeChunks_eq : ∀ (chunks : List (List Byte)) (outFile : List Byte),
    writeChunks outFile chunks = outFile ++ chunks.flatten := by
  intro chunks
  induction chunks with
  | nil => intro outFile; simp [writeChunks]
  | cons c rest ih => intro outFile; simp [writeChunks, ih]

/-- One iteration of the reader on a stream that starts with a complete frame. -/
theorem readFrames_frame (uninit : Nat → Nat) (i n g : Nat) (c rest : List Byte)
    (acc : List (List Byte)) (hc : c.length < 2 ^ 32) :
    readFrames uninit i (n + 1)
        { data := frame c ++ rest, eofbit := false, failbit := false, gcount := g } acc
      = readFrames uninit (i + 1) n
          { data := rest, eofbit := false, failbit := false, gcount := c.length }
          (acc ++ [c]) := by
  have h4 : 4 ≤ (frame c ++ rest).length := by
    simp [frame_of_lt c hc, bytesOfU32_length]
  have htake : (frame c ++ rest).take 4 = bytesOfU32 c.length := by
    rw [frame_of_lt c hc, List.append_assoc]
    exact List.take_left (bytesOfU32 c.length) (c ++ rest)
  have hdrop : (frame c ++ rest).drop 4 = c ++ rest := by
    rw [frame_of_lt c hc, List.append_assoc]
    exact List.drop_left (bytesOfU32 c.length) (c ++ rest)
  have hsize : u32OfBytes (store (bytesOfU32 (uninit i % 2 ^ 32)) (bytesOfU32 c.length))
      = c.length := by
    rw [store_same_length _ _ (by simp [bytesOfU32_length]), u32OfBytes_bytesOfU32 _ hc]
  have hc2 : c.length ≤ (c ++ rest).length := by simp
  rw [readFrames]
  simp only [read_full _ g 4 h4, htake, hdrop, hsize, read_full _ 4 c.length hc2,
    List.take_left, List.drop_left, store_zeros, Nat.sub_self]
  simp [zeros]

/-- Reading back what the writer wrote: the reader returns the chunks and leaves the stream
good, positioned just after the last frame read. -/
theorem readFrames_frames (uninit : Nat → Nat) : ∀ (cs : List (List Byte)) (i g : Nat)
    (rest : List Byte) (acc : List (List Byte)), (∀ c ∈ cs, c.length < 2 ^ 32) →
    ∃ g2, readFrames uninit i cs.length
        { data := (cs.map frame).flatten ++ rest, eofbit := false, failbit := false,
          gcount := g } acc
      = ({ data := rest, eofbit := false, failbit := false, gcount := g2 }, acc ++ cs) := by
  intro cs
  induction cs with
  | nil => intro i g rest acc _; exact ⟨g, by simp [readFrames]⟩
  | cons c cs ih =>
    intro i g rest acc h
    have hc : c.length < 2 ^ 32 := h c (List.mem_cons_self c cs)
    obtain ⟨g2, hg2⟩ := ih (i + 1) c.length rest (acc ++ [c])
      (fun x hx => h x (List.mem_cons_of_mem c hx))
    refine ⟨g2, ?_⟩
    simp only [List.map_cons, List.flatten_cons, List.length_cons, List.append_assoc]
    rw [readFrames_frame uninit i cs.length g c _ acc hc, hg2]
    simp

/-! ## Chunking (claims C2, C3) -/

theorem readChunks_opened (b : List Byte) (fuel : Nat)
    (hfuel : b.length / CHUNK_SIZE + 2 ≤ fuel) :
    readChunks fuel (IfStream.opened b) [] = some (chunkList (b.length / CHUNK_SIZE) b) := by
  rw [IfStream.opened, readChunks_eq fuel b 0 [] hfuel, List.nil_append]

theorem readSizes_opened (b : List Byte) (fuel : Nat)
    (hfuel : b.length / CHUNK_SIZE + 2 ≤ fuel) :
    readSizes fuel (IfStream.opened b) [] = some (sizeList (b.length / CHUNK_SIZE) b.length) := by
  rw [IfStream.opened, readSizes_eq fuel b 0 [] hfuel, List.nil_append]

/-- Claim C2 (chunk coverage). Given enough fuel the chunking loop of `compressFile` returns a chunk
list whose concatenation is the source, so the chunk lengths sum to the source length; every
chunk but the last has exactly `CHUNK_SIZE` bytes, no chunk has more, and every chunk is the
slice of the source at its own offset (nothing is padded). -/
theorem chunk_coverage (b : List Byte) (fuel : Nat)
    (hfuel : b.length / CHUNK_SIZE + 2 ≤ fuel) :
    ∃ chunks, readChunks fuel (IfStream.opened b) [] = some chunks ∧
      chunks.flatten = b ∧
      (chunks.map List.length).sum = b.length ∧
      (∀ i, i + 1 < chunks.length → (chunks.getD i []).length = CHUNK_SIZE) ∧
      (∀ c ∈ chunks, c.length ≤ CHUNK_SIZE) ∧
      (∀ i, i < chunks.length →
        chunks[i]? = some ((b.drop (i * CHUNK_SIZE)).take CHUNK_SIZE)) := by
  refine ⟨chunkList (b.length / CHUNK_SIZE) b, readChunks_opened b fuel hfuel,
    chunkList_flatten _ b, ?_, ?_, ?_, ?_⟩
  · rw [← List.length_flatten, chunkList_flatten]
  · intro i hi
    rw [chunkList_length] at hi
    have hik : i + 1 ≤ b.length / CHUNK_SIZE := by omega
    have h1 : (i + 1) * CHUNK_SIZE ≤ b.length :=
      Nat.le_trans (Nat.mul_le_mul_right CHUNK_SIZE hik) (mul_div_chunk_le b.length)
    rw [Nat.succ_mul] at h1
    rw [List.getD_eq_getElem?_getD, chunkList_getElem? _ b i (by omega)]
    simp only [Option.getD_some, List.length_take, List.length_drop]
    omega
  · intro c hc
    obtain ⟨i, hi⟩ := List.mem_iff_getElem?.mp hc
    have hlt : i < (chunkList (b.length / CHUNK_SIZE) b).length := by
      by_contra hge
      rw [List.getElem?_eq_none (by omega)] at hi
      cases hi
    rw [chunkList_length] at hlt
    rw [chunkList_slice b i hlt] at hi
    cases hi
    exact List.length_take_le _ _
  · intro i hi
    rw [chunkList_length] at hi
    exact chunkList_slice b i hi

theorem chunk_coverage_witness :
    ∃ chunks, readChunks 2 (IfStream.opened [1, 2, 3]) [] = some chunks ∧
      chunks.flatten = [1, 2, 3] ∧
      (chunks.map List.length).sum = 3 ∧
      (∀ i, i + 1 < chunks.length → (chunks.getD i []).length = CHUNK_SIZE) ∧
      (∀ c ∈ chunks, c.length ≤ CHUNK_SIZE) ∧
      (∀ i, i < chunks.length →
        chunks[i]? = some ((([1, 2, 3] : List Byte).drop (i * CHUNK_SIZE)).take CHUNK_SIZE)) :=
  chunk_coverage [1, 2, 3] 2 (by decide)

/-- Claim C3 (chunk count), evaluation at two inputs whose length is a multiple of `CHUNK_SIZE`:
on the empty file the chunking loop of `compressFile` returns one (empty) chunk, not zero
chunks, and on a file of exactly `CHUNK_SIZE` bytes it returns two chunks, the file and an
empty chunk, not one. -/
theorem chunk_count_multiple :
    readChunks 2 (IfStream.opened []) [] = some [[]] ∧
      readChunks 3 (IfStream.opened (zeros CHUNK_SIZE)) [] = some [zeros CHUNK_SIZE, []] := by
  constructor
  · exact readChunks_opened [] 2 (by decide)
  · have hdiv : (zeros CHUNK_SIZE).length / CHUNK_SIZE = 1 := by
      rw [zeros_length]; exact Nat.div_self CHUNK_SIZE_pos
    have h := readChunks_opened (zeros CHUNK_SIZE) 3 (by rw [hdiv])
    rw [h, hdiv]
    have ht : (zeros CHUNK_SIZE).take CHUNK_SIZE = zeros CHUNK_SIZE :=
      List.take_of_length_le (by simp)
    have hd : (zeros CHUNK_SIZE).drop CHUNK_SIZE = [] :=
      List.drop_of_length_le (by simp)
    simp only [chunkList, ht, hd]

/-! ## Frames (claims C4, C5) -/

theorem bytesOfU32_littleEndian (w : Nat) (h : w < 2 ^ 32) :
    ∃ b0 b1 b2 b3 : Byte, bytesOfU32 w = [b0, b1, b2, b3] ∧
      b0.val + 256 * b1.val + 65536 * b2.val + 16777216 * b3.val = w := by
  refine ⟨_, _, _, _, rfl, ?_⟩
  simp only [Fin.ofNat]
  omega

theorem frames_length : ∀ cs : List (List Byte),
    ((cs.map (fun c => bytesOfU32 c.length ++ c)).flatten).length
      = 4 * cs.length + (cs.map List.length).sum := by
  intro cs
  induction cs with
  | nil => rfl
  | cons c cs ih =>
    simp only [List.map_cons, List.flatten_cons, List.length_append, List.length_cons,
      List.sum_cons, ih, bytesOfU32_length]
    omega

theorem map_frame_of_lt (cs : List (List Byte)) (h : ∀ c ∈ cs, c.length < 2 ^ 32) :
    cs.map frame = cs.map (fun c => bytesOfU32 c.length ++ c) :=
  List.map_congr_left (fun c hc => frame_of_lt c (h c hc))

/-- Claim C4 (writer layout). For compressed chunks shorter than `2 ^ 32` bytes the frame writer of
`compressFile` emits exactly the concatenation, in index order, of each chunk's four length
bytes followed by the chunk's bytes; the four length bytes are the little-endian digits of the
chunk's byte count; the artifact has `4 * N` plus the sum of the chunk lengths bytes. -/
theorem writer_layout (cs : List (List Byte)) (h : ∀ c ∈ cs, c.length < 2 ^ 32) :
    writeFrames [] cs = (cs.map (fun c => bytesOfU32 c.length ++ c)).flatten ∧
      (∀ c ∈ cs, ∃ b0 b1 b2 b3 : Byte, bytesOfU32 c.length = [b0, b1, b2, b3] ∧
        b0.val + 256 * b1.val + 65536 * b2.val + 16777216 * b3.val = c.length) ∧
      (writeFrames [] cs).length = 4 * cs.length + (cs.map List.length).sum := by
  have hw : writeFrames [] cs = (cs.map (fun c => bytesOfU32 c.length ++ c)).flatten := by
    rw [writeFrames_eq, List.nil_append, map_frame_of_lt cs h]
  refine ⟨hw, fun c hc => bytesOfU32_littleEndian c.length (h c hc), ?_⟩
  rw [hw, frames_length]

theorem writer_layout_witness :
    writeFrames [] [[7, 8], [], [9]]
        = ([[7, 8], [], [9]].map (fun c => bytesOfU32 c.length ++ c)).flatten ∧
      (∀ c ∈ ([[7, 8], [], [9]] : List (List Byte)), ∃ b0 b1 b2 b3 : Byte,
        bytesOfU32 c.length = [b0, b1, b2, b3] ∧
        b0.val + 256 * b1.val + 65536 * b2.val + 16777216 * b3.val = c.length) ∧
      (writeFrames [] [[7, 8], [], [9]]).length
        = 4 * ([[7, 8], [], [9]] : List (List Byte)).length
          + (([[7, 8], [], [9]] : List (List Byte)).map List.length).sum :=
  writer_layout [[7, 8], [], [9]] (by decide)

/-- Claim C5 (frame round trip). Writing compressed chunks shorter than `2 ^ 32` bytes with the frame
writer of `compressFile` and reading the written bytes back with the frame reader of
`decompressFile`, given their count, returns the same chunks in the same order; the reader ends
on a good stream with nothing left to read. -/
theorem frame_roundtrip (uninit : Nat → Nat) (cs : List (List Byte))
    (h : ∀ c ∈ cs, c.length < 2 ^ 32) :
    (readFrames uninit 0 cs.length (IfStream.opened (writeFrames [] cs)) []).2 = cs ∧
      (readFrames uninit 0 cs.length (IfStream.opened (writeFrames [] cs)) []).1.data = [] ∧
      (readFrames uninit 0 cs.length (IfStream.opened (writeFrames [] cs)) []).1.good
        = true := by
  obtain ⟨g2, hg2⟩ := readFrames_frames uninit cs 0 0 [] [] h
  rw [List.append_nil] at hg2
  rw [writeFrames_eq, List.nil_append, IfStream.opened, hg2]
  simp [IfStream.good]

theorem frame_roundtrip_witness :
    (readFrames (fun _ => 0) 0 3 (IfStream.opened (writeFrames [] [[7, 8], [], [9]])) []).2
        = [[7, 8], [], [9]] ∧
      (readFrames (fun _ => 0) 0 3
        (IfStream.opened (writeFrames [] [[7, 8], [], [9]])) []).1.data = [] ∧
      (readFrames (fun _ => 0) 0 3
        (IfStream.opened (writeFrames [] [[7, 8], [], [9]])) []).1.good = true :=
  frame_roundtrip (fun _ => 0) [[7, 8], [], [9]] (by decide)

/-! ## Fan-out by index (claim C6) -/

theorem runThreads_all_ok (task : Nat → Except RuntimeError (List Byte)) (n : Nat)
    (hok : ∀ i, i < n → ∃ r, task i = .ok r) :
    ∃ res : List (List Byte), res.length = n ∧
      (∀ i, i < n → task i = .ok (res.getD i [])) ∧
      ∀ order : List Nat, order.Perm (List.range n) →
        runThreads task order (List.replicate n []) = .ok res := by
  have hget : ∀ i, i < n →
      task i = .ok (((List.range n).map (fun i => okOr (task i))).getD i []) := by
    intro i hi
    obtain ⟨r, hr⟩ := hok i hi
    simp [List.getD_eq_getElem?_getD, List.getElem?_range hi, hr, okOr]
  refine ⟨(List.range n).map (fun i => okOr (task i)), by simp, hget, ?_⟩
  intro order hp
  apply runThreads_perm
  · simpa using hp
  · simp
  · intro i hi
    exact hget i (by simpa using hi)

/-- Claim C6 (fan-out result by index). For every order in which the threads run (any permutation
of the thread indices), when no task throws, the collection built by the fan-out of
`compressFile` has one slot per chunk and slot `i` holds `compressChunk(chunks[i])`, and the
collection built by the fan-out of `decompressFile` has one slot per compressed chunk and slot
`i` holds `decompressChunk(compressedChunks[i], originalSizes[i])`; any other order gives the
same collection. -/
theorem fanout_by_index (z : Zlib) (chunks compressedChunks : List (List Byte))
    (originalSizes : List Nat) (orderC orderD : List Nat)
    (hpC : orderC.Perm (List.range chunks.length))
    (hokC : ∀ i, i < chunks.length → ∃ r, compressChunk z (chunks.getD i []) = .ok r)
    (hlen : originalSizes.length = compressedChunks.length)
    (hpD : orderD.Perm (List.range compressedChunks.length))
    (hokD : ∀ i, i < compressedChunks.length →
      ∃ r, decompressChunk z (compressedChunks.getD i []) (originalSizes.getD i 0) = .ok r) :
    (∃ res, compressFanOut z orderC chunks = .ok res ∧ res.length = chunks.length ∧
      (∀ i, i < chunks.length → compressChunk z (chunks.getD i []) = .ok (res.getD i [])) ∧
      ∀ order2 : List Nat, order2.Perm (List.range chunks.length) →
        compressFanOut z order2 chunks = .ok res) ∧
    (∃ res, decompressFanOut z orderD compressedChunks originalSizes = .ok res ∧
      res.length = compressedChunks.length ∧
      (∀ i, i < compressedChunks.length →
        decompressChunk z (compressedChunks.getD i []) (originalSizes.getD i 0)
          = .ok (res.getD i [])) ∧
      ∀ order2 : List Nat, order2.Perm (List.range compressedChunks.length) →
        decompressFanOut z order2 compressedChunks originalSizes = .ok res) := by
  constructor
  · obtain ⟨res, h1, h2, h3⟩ := runThreads_all_ok _ chunks.length hokC
    exact ⟨res, h3 orderC hpC, h1, h2, fun o ho => h3 o ho⟩
  · obtain ⟨res, h1, h2, h3⟩ := runThreads_all_ok _ compressedChunks.length hokD
    refine ⟨res, ?_, h1, h2, ?_⟩
    · rw [decompressFanOut, hlen]
      exact h3 orderD hpD
    · intro o ho
      rw [decompressFanOut, hlen]
      exact h3 o ho

theorem storedZlib_compressChunk (x : List Byte) : compressChunk storedZlib x = .ok x := by
  simp [compressChunk, storedZlib, Zlib.compress, Z_OK, resize_store_zeros]

theorem storedZlib_decompressChunk (x : List Byte) (n : Nat) (h : x.length ≤ n) :
    decompressChunk storedZlib x n = .ok (x ++ zeros (n - x.length)) := by
  simp [decompressChunk, storedZlib, Zlib.uncompress, Z_OK, h, store_zeros]

theorem fanout_by_index_witness :
    (∃ res, compressFanOut storedZlib [2, 0, 1] [[1], [2, 3], []] = .ok res ∧
      res.length = ([[1], [2, 3], []] : List (List Byte)).length ∧
      (∀ i, i < ([[1], [2, 3], []] : List (List Byte)).length →
        compressChunk storedZlib (([[1], [2, 3], []] : List (List Byte)).getD i [])
          = .ok (res.getD i [])) ∧
      ∀ order2 : List Nat,
        order2.Perm (List.range ([[1], [2, 3], []] : List (List Byte)).length) →
        compressFanOut storedZlib order2 [[1], [2, 3], []] = .ok res) ∧
    (∃ res, decompressFanOut storedZlib [1, 0] [[4], [5, 6]] [1, 2] = .ok res ∧
      res.length = ([[4], [5, 6]] : List (List Byte)).length ∧
      (∀ i, i < ([[4], [5, 6]] : List (List Byte)).length →
        decompressChunk storedZlib (([[4], [5, 6]] : List (List Byte)).getD i [])
            (([1, 2] : List Nat).getD i 0)
          = .ok (res.getD i [])) ∧
      ∀ order2 : List Nat,
        order2.Perm (List.range ([[4], [5, 6]] : List (List Byte)).length) →
        decompressFanOut storedZlib order2 [[4], [5, 6]] [1, 2] = .ok res) :=
  fanout_by_index storedZlib [[1], [2, 3], []] [[4], [5, 6]] [1, 2] [2, 0, 1] [1, 0]
    (by decide) (fun i _ => ⟨_, storedZlib_compressChunk _⟩) rfl (by decide)
    (fun i hi => by
      have h2 : i < 2 := hi
      interval_cases i
      · exact ⟨_, storedZlib_decompressChunk [4] 1 (by decide)⟩
      · exact ⟨_, storedZlib_decompressChunk [5, 6] 2 (by decide)⟩)

/-! ## Size check of `decompressChunk` (claim C7) -/

theorem readFrames_succ (uninit : Nat → Nat) (i n : Nat) (s : IfStream)
    (acc : List (List Byte)) :
    readFrames uninit i (n + 1) s acc
      = readFrames uninit (i + 1) n (frameStep uninit i s).1
          (acc ++ [(frameStep uninit i s).2]) := rfl

theorem readFrames_acc (uninit : Nat → Nat) : ∀ (n i : Nat) (s : IfStream)
    (acc : List (List Byte)),
    ∃ new, (readFrames uninit i n s acc).2 = acc ++ new ∧ new.length = n := by
  intro n
  induction n with
  | zero => intro i s acc; exact ⟨[], by simp [readFrames]⟩
  | succ n ih =>
    intro i s acc
    rw [readFrames_succ]
    obtain ⟨new, h1, h2⟩ := ih (i + 1) (frameStep uninit i s).1 (acc ++ [(frameStep uninit i s).2])
    exact ⟨(frameStep uninit i s).2 :: new, by rw [h1]; simp, by simp [h2]⟩

theorem readFrames_split (uninit : Nat → Nat) (m : Nat) : ∀ (n i : Nat) (s : IfStream)
    (acc : List (List Byte)),
    readFrames uninit i (n + m) s acc
      = readFrames uninit (i + n) m (readFrames uninit i n s acc).1
          (readFrames uninit i n s acc).2 := by
  intro n
  induction n with
  | zero => intro i s acc; simp [readFrames]
  | succ n ih =>
    intro i s acc
    rw [Nat.succ_add, readFrames_succ, readFrames_succ, ih, Nat.add_assoc, Nat.add_comm 1 n]

/-- The reader on a frame whose payload is cut short by the end of the stream. -/
theorem frameStep_short (uninit : Nat → Nat) (i g len : Nat) (avail : List Byte)
    (hlen : len < 2 ^ 32) (havail : avail.length < len) :
    (frameStep uninit i
        { data := bytesOfU32 len ++ avail, eofbit := false, failbit := false, gcount := g }).2
      = avail ++ zeros (len - avail.length) := by
  have h4 : 4 ≤ (bytesOfU32 len ++ avail).length := by simp [bytesOfU32_length]
  have hsize : u32OfBytes (store (bytesOfU32 (uninit i % 2 ^ 32)) (bytesOfU32 len)) = len := by
    rw [store_same_length _ _ (by simp [bytesOfU32_length]), u32OfBytes_bytesOfU32 _ hlen]
  have ht : (bytesOfU32 len ++ avail).take 4 = bytesOfU32 len :=
    List.take_left (bytesOfU32 len) avail
  have hdr : (bytesOfU32 len ++ avail).drop 4 = avail :=
    List.drop_left (bytesOfU32 len) avail
  simp only [frameStep, read_full _ g 4 h4, ht, hdr, hsize, read_short avail 4 len havail,
    store_zeros]

/-- Claim C8 as the code has it (truncated frame stream). The frame reader of `decompressFile` tests
nothing: for every byte stream and every count `N` it returns `N` payloads. When the stream
holds complete frames and then a frame whose payload is cut short by the end of the stream, the
reader returns the complete payloads followed by the short one stretched to its declared
length: the bytes that are there, then zero bytes. -/
theorem reader_no_truncation_check (uninit : Nat → Nat) (N : Nat) (stream : List Byte) :
    (readFrames uninit 0 N (IfStream.opened stream) []).2.length = N ∧
      ∀ (cs : List (List Byte)) (len : Nat) (avail : List Byte),
        (∀ c ∈ cs, c.length < 2 ^ 32) → cs.length < N → len < 2 ^ 32 → avail.length < len →
        stream = (cs.map frame).flatten ++ (bytesOfU32 len ++ avail) →
        (readFrames uninit 0 N (IfStream.opened stream) []).2.take (cs.length + 1)
          = cs ++ [avail ++ zeros (len - avail.length)] := by
  constructor
  · obtain ⟨new, h1, h2⟩ := readFrames_acc uninit N 0 (IfStream.opened stream) []
    rw [h1]
    simpa using h2
  · intro cs len avail hcs hN hlen havail hstream
    obtain ⟨m, rfl⟩ : ∃ m, N = cs.length + (m + 1) := ⟨N - cs.length - 1, by omega⟩
    obtain ⟨g2, hg2⟩ := readFrames_frames uninit cs 0 0 (bytesOfU32 len ++ avail) [] hcs
    rw [hstream, IfStream.opened, readFrames_split, hg2, readFrames_succ,
      frameStep_short uninit _ g2 len avail hlen havail]
    obtain ⟨new, h1, _⟩ := readFrames_acc uninit m (0 + cs.length + 1)
      (frameStep uninit (0 + cs.length)
        { data := bytesOfU32 len ++ avail, eofbit := false, failbit := false,
          gcount := g2 }).1
      ([] ++ cs ++ [avail ++ zeros (len - avail.length)])
    rw [h1, List.nil_append, List.take_append_of_le_length (by simp), List.take_of_length_le
      (by simp)]

theorem reader_no_truncation_check_witness :
    (readFrames (fun _ => 7) 0 2 (IfStream.opened [1, 0, 0, 0, 9, 5, 0, 0, 0, 1, 2]) []).2
      = [[9], [1, 2, 0, 0, 0]] := by
  have h := (reader_no_truncation_check (fun _ => 7) 2 [1, 0, 0, 0, 9, 5, 0, 0, 0, 1, 2]).2
    [[9]] 5 [1, 2] (by decide) (by decide) (by decide) (by decide) rfl
  have hl := (reader_no_truncation_check (fun _ => 7) 2 [1, 0, 0, 0, 9, 5, 0, 0, 0, 1, 2]).1
  rw [List.take_of_length_le (by rw [hl]; rfl)] at h
  exact h

/-- Claim C8 as stated fails: the stream `05 00 00 00 01 02` declares a payload of five bytes and
ends after two, and the reader asked for one frame returns one payload of five bytes instead
of failing. -/
theorem reader_accepts_truncated :
    (readFrames (fun _ => 0) 0 1 (IfStream.opened [5, 0, 0, 0, 1, 2]) []).2
      = [[1, 2, 0, 0, 0]] := by
  decide

/-! ## Failure propagation (claim C9) -/

theorem compressChunk_error (z : Zlib) (x : List Byte) (e : RuntimeError)
    (h : compressChunk z x = .error e) : e = .compressionFailed := by
  unfold compressChunk at h
  simp only at h
  split at h
  · cases h; rfl
  · cases h

theorem decompressChunk_error (z : Zlib) (x : List Byte) (n : Nat) (e : RuntimeError)
    (h : decompressChunk z x n = .error e) : e = .decompressionFailed := by
  unfold decompressChunk at h
  simp only at h
  split at h
  · cases h; rfl
  · cases h

theorem readFrames_length (uninit : Nat → Nat) (n i : Nat) (s : IfStream) :
    (readFrames uninit i n s []).2.length = n := by
  obtain ⟨new, h1, h2⟩ := readFrames_acc uninit n i s []
  rw [h1]
  simpa using h2

/-- The run of `decompressFile` in terms of the payloads the reader returns. -/
theorem decompressFile_eq (z : Zlib) (uninit : Nat → Nat) (sched : Nat → List Nat)
    (input : List Byte) (originalSizes : List Nat) :
    decompressFile z uninit sched input originalSizes
      = match decompressFanOut z (sched originalSizes.length)
          (readFrames uninit 0 originalSizes.length (IfStream.opened input) []).2
          originalSizes with
        | .error e => { outFile := [], exit := .terminated e }
        | .ok decompressedChunks =>
          { outFile := writeChunks [] decompressedChunks, exit := .returned } := by
  simp only [decompressFile, readFrames_length]

/-- Claim C9 (failure propagation without partial output). Two independent statements, for
every zlib and every thread schedule. When `decompressChunk` throws for at least one of the
payloads read, `decompressFile` ends by `std::terminate` with nothing written to its output,
whatever the other chunks decode to. When `compressChunk` throws for at least one chunk,
`compressFile` ends the same way with no frame written. -/
theorem failure_no_output (z : Zlib) (uninit : Nat → Nat) (schedC schedD : Nat → List Nat)
    (fuel : Nat) (b stream : List Byte) (originalSizes : List Nat)
    (hsC : ∀ n, (schedC n).Perm (List.range n))
    (hsD : ∀ n, (schedD n).Perm (List.range n)) :
    ((∃ i, i < originalSizes.length ∧ ∃ e,
        decompressChunk z
          ((readFrames uninit 0 originalSizes.length (IfStream.opened stream) []).2.getD i [])
          (originalSizes.getD i 0) = .error e) →
      decompressFile z uninit schedD stream originalSizes
        = { outFile := [], exit := .terminated .decompressionFailed }) ∧
    ((∃ chunks, readChunks fuel (IfStream.opened b) [] = some chunks ∧
        ∃ i, i < chunks.length ∧ ∃ e, compressChunk z (chunks.getD i []) = .error e) →
      compressFile z schedC fuel b
        = some { outFile := [], exit := .terminated .compressionFailed }) := by
  constructor
  · intro hfailD
    obtain ⟨i, hi, e, he⟩ := hfailD
    have hmem : i ∈ schedD originalSizes.length := by
      rw [(hsD _).mem_iff, List.mem_range]; exact hi
    obtain ⟨j, e2, hj, hrun⟩ := runThreads_error
      (fun i => decompressChunk z
        ((readFrames uninit 0 originalSizes.length (IfStream.opened stream) []).2.getD i [])
        (originalSizes.getD i 0))
      (schedD originalSizes.length) (List.replicate originalSizes.length []) ⟨i, hmem, e, he⟩
    have he2 := decompressChunk_error _ _ _ _ hj
    subst he2
    rw [decompressFile_eq, decompressFanOut, hrun]
  · intro hfailC
    obtain ⟨chunks, hchunks, i, hi, e, he⟩ := hfailC
    have hmem : i ∈ schedC chunks.length := by
      rw [(hsC _).mem_iff, List.mem_range]; exact hi
    obtain ⟨j, e2, hj, hrun⟩ := runThreads_error
      (fun i => compressChunk z (chunks.getD i []))
      (schedC chunks.length) (List.replicate chunks.length []) ⟨i, hmem, e, he⟩
    have he2 := compressChunk_error _ _ _ hj
    subst he2
    simp only [compressFile, hchunks, compressFanOut, hrun]

theorem failure_no_output_witness :
    decompressFile storedZlib (fun _ => 0) (fun n => (List.range n).reverse)
        [1, 0, 0, 0, 9, 2, 0, 0, 0, 1, 2] [1, 1]
        = { outFile := [], exit := .terminated .decompressionFailed } ∧
      compressFile tightZlib List.range 2 [1]
        = some { outFile := [], exit := .terminated .compressionFailed } :=
  ⟨(failure_no_output storedZlib (fun _ => 0) List.range (fun n => (List.range n).reverse) 2
      [] [1, 0, 0, 0, 9, 2, 0, 0, 0, 1, 2] [1, 1]
      (fun _ => List.Perm.refl _) (fun n => List.reverse_perm (List.range n))).1
      ⟨1, by decide, .decompressionFailed, rfl⟩,
    (failure_no_output tightZlib (fun _ => 0) List.range List.range 2 [1] [] []
      (fun _ => List.Perm.refl _) (fun _ => List.Perm.refl _)).2
      ⟨[[1]], readChunks_opened [1] 2 (by decide), 0, by decide, .compressionFailed, rfl⟩⟩

/-! ## Whole-file runs -/

theorem cchunk_of_ok (z : Zlib) (x c : List Byte) (h : compressChunk z x = .ok c) :
    cchunk z x = c := by
  simp [cchunk, h, okOr]

theorem getD_of_getElem? {α : Type} (l : List α) (i : Nat) (d a : α) (h : l[i]? = some a) :
    l.getD i d = a := by
  simp [List.getD_eq_getElem?_getD, h]

theorem getElem?_mem_of_lt {α : Type} (l : List α) (i : Nat) (h : i < l.length) :
    ∃ a, l[i]? = some a ∧ a ∈ l :=
  ⟨l[i], List.getElem?_eq_getElem h, List.getElem_mem h⟩

/-- The run of `compressFile` when `compressChunk` succeeds on every chunk. -/
theorem compressFile_ok (z : Zlib) (sched : Nat → List Nat) (fuel : Nat) (b : List Byte)
    (hs : ∀ n, (sched n).Perm (List.range n))
    (hfuel : b.length / CHUNK_SIZE + 2 ≤ fuel)
    (hok : ∀ x ∈ chunkList (b.length / CHUNK_SIZE) b, compressChunk z x = .ok (cchunk z x)) :
    compressFile z sched fuel b
      = some { outFile :=
                (((chunkList (b.length / CHUNK_SIZE) b).map (cchunk z)).map frame).flatten,
               exit := .returned } := by
  have hrun : compressFanOut z (sched (chunkList (b.length / CHUNK_SIZE) b).length)
      (chunkList (b.length / CHUNK_SIZE) b)
      = .ok ((chunkList (b.length / CHUNK_SIZE) b).map (cchunk z)) := by
    apply runThreads_perm
    · simpa using hs _
    · simp
    · intro i hi
      rw [List.length_replicate] at hi
      obtain ⟨x, hx, hmem⟩ := getElem?_mem_of_lt _ i hi
      rw [getD_of_getElem? _ i [] x hx, hok x hmem]
      congr 1
      exact (getD_of_getElem? _ i [] (cchunk z x) (by simp [List.getElem?_map, hx])).symm
  simp only [compressFile, readChunks_opened b fuel hfuel, hrun, writeFrames_eq,
    List.nil_append]

/-- The run of `decompressFile` on an artifact that starts with the frames of the compressed
forms of the chunks `xs`, given the lengths of `xs` as original sizes. -/
theorem decompressFile_frames (z : Zlib) (uninit : Nat → Nat) (sched : Nat → List Nat)
    (xs : List (List Byte)) (rest : List Byte)
    (hs : ∀ n, (sched n).Perm (List.range n))
    (hlt : ∀ x ∈ xs, (cchunk z x).length < 2 ^ 32)
    (hrt : ∀ x ∈ xs, decompressChunk z (cchunk z x) x.length = .ok x) :
    decompressFile z uninit sched (((xs.map (cchunk z)).map frame).flatten ++ rest)
        (xs.map List.length)
      = { outFile := xs.flatten, exit := .returned } := by
  have hlt2 : ∀ c ∈ xs.map (cchunk z), c.length < 2 ^ 32 := by
    intro c hc
    obtain ⟨x, hx, rfl⟩ := List.mem_map.mp hc
    exact hlt x hx
  obtain ⟨g2, hg2⟩ := readFrames_frames uninit (xs.map (cchunk z)) 0 0 rest [] hlt2
  rw [List.length_map, List.nil_append] at hg2
  have hrun : decompressFanOut z (sched (xs.map List.length).length) (xs.map (cchunk z))
      (xs.map List.length) = .ok xs := by
    apply runThreads_perm
    · simpa using hs _
    · simp
    · intro i hi
      rw [List.length_replicate, List.length_map] at hi
      obtain ⟨x, hx, hmem⟩ := getElem?_mem_of_lt _ i hi
      rw [getD_of_getElem? _ i [] x hx,
        getD_of_getElem? _ i [] (cchunk z x) (by simp [List.getElem?_map, hx]),
        getD_of_getElem? _ i 0 x.length (by simp [List.getElem?_map, hx])]
      exact hrt x hmem
  rw [decompressFile_eq]
  simp only [List.length_map, IfStream.opened, hg2]
  rw [List.length_map] at hrun
  simp only [hrun, writeChunks_eq, List.nil_append]

theorem chunkList_mem_length (b x : List Byte)
    (h : x ∈ chunkList (b.length / CHUNK_SIZE) b) : x.length ≤ CHUNK_SIZE := by
  obtain ⟨i, hi⟩ := List.mem_iff_getElem?.mp h
  have hlt : i < (chunkList (b.length / CHUNK_SIZE) b).length := by
    by_contra hge
    rw [List.getElem?_eq_none (by omega)] at hi
    cases hi
  rw [chunkList_length] at hlt
  rw [chunkList_slice b i hlt] at hi
  cases hi
  exact List.length_take_le _ _

theorem chunkList_drop (k : Nat) : ∀ d : List Byte,
    (chunkList k d).drop k = [d.drop (k * CHUNK_SIZE)] := by
  induction k with
  | zero => intro d; simp [chunkList]
  | succ k ih =>
    intro d
    simp only [chunkList, List.drop_succ_cons, ih, List.drop_drop]
    rw [Nat.succ_mul, Nat.add_comm CHUNK_SIZE]

theorem sizes_are_chunk_lengths (b : List Byte) :
    ∃ n, sizeList (b.length / CHUNK_SIZE) b.length
          = ((chunkList (b.length / CHUNK_SIZE) b).take n).map List.length ∧
      ((chunkList (b.length / CHUNK_SIZE) b).take n).flatten = b ∧
      n = (sizeList (b.length / CHUNK_SIZE) b.length).length :=
  ⟨_, (sizeList_chunkList _ b rfl).1, (sizeList_chunkList _ b rfl).2, rfl⟩

theorem frames_split (z : Zlib) (chunks : List (List Byte)) (n : Nat) :
    ((chunks.map (cchunk z)).map frame).flatten
      = (((chunks.take n).map (cchunk z)).map frame).flatten
        ++ (((chunks.drop n).map (cchunk z)).map frame).flatten := by
  rw [← List.flatten_append, ← List.map_append, ← List.map_append, List.take_append_drop]

/-- What the zlib round-trip assumption gives for the two chunk functions. -/
theorem chunk_roundtrip (z : Zlib) (x c : List Byte)
    (h1 : z.compress (z.compressBound x.length) x = (Z_OK, c))
    (h2 : z.uncompress x.length c = (Z_OK, x)) :
    compressChunk z x = .ok c ∧ decompressChunk z c x.length = .ok x := by
  constructor
  · simp [compressChunk, h1, resize_store_zeros]
  · simp [decompressChunk, h2, store_same_length]

/-! ## File-level round trip (claim C1) -/

/-- Claim C1 (file-level round trip). Assume that on every block `x` of at most `CHUNK_SIZE` bytes
zlib's `compress`, given `compressBound(len x)` bytes of room, succeeds with fewer than
`2 ^ 32` bytes and `uncompress` of the result with room `len x` succeeds and gives `x` back.
Then for every file `b`, every thread schedule and enough fuel, `compressFile` returns having
written an artifact, and `decompressFile` on that artifact with the size list `main` computes
from `b` returns having written exactly `b`; so does `main` as a whole. -/
theorem file_roundtrip (z : Zlib) (uninit : Nat → Nat) (schedC schedD : Nat → List Nat)
    (fuel : Nat) (b : List Byte)
    (hsC : ∀ n, (schedC n).Perm (List.range n))
    (hsD : ∀ n, (schedD n).Perm (List.range n))
    (hfuel : b.length / CHUNK_SIZE + 2 ≤ fuel)
    (hz : ∀ x : List Byte, x.length ≤ CHUNK_SIZE →
      ∃ c, z.compress (z.compressBound x.length) x = (Z_OK, c) ∧ c.length < 2 ^ 32 ∧
        z.uncompress x.length c = (Z_OK, x)) :
    ∃ artifact sizes, readSizes fuel (IfStream.opened b) [] = some sizes ∧
      compressFile z schedC fuel b = some { outFile := artifact, exit := .returned } ∧
      decompressFile z uninit schedD artifact sizes = { outFile := b, exit := .returned } ∧
      main z uninit schedC schedD fuel b
        = some ({ outFile := artifact, exit := .returned },
            some { outFile := b, exit := .returned }) := by
  have hchunk : ∀ x : List Byte, x.length ≤ CHUNK_SIZE →
      compressChunk z x = .ok (cchunk z x) ∧ (cchunk z x).length < 2 ^ 32 ∧
        decompressChunk z (cchunk z x) x.length = .ok x := by
    intro x hx
    obtain ⟨c, h1, h2, h3⟩ := hz x hx
    obtain ⟨h4, h5⟩ := chunk_roundtrip z x c h1 h3
    rw [cchunk_of_ok z x c h4]
    exact ⟨h4, h2, h5⟩
  obtain ⟨n, hn1, hn2, _⟩ := sizes_are_chunk_lengths b
  have hsizes := readSizes_opened b fuel hfuel
  have hcomp := compressFile_ok z schedC fuel b hsC hfuel
    (fun x hx => (hchunk x (chunkList_mem_length b x hx)).1)
  have hdec : decompressFile z uninit schedD
      (((chunkList (b.length / CHUNK_SIZE) b).map (cchunk z)).map frame).flatten
      (sizeList (b.length / CHUNK_SIZE) b.length) = { outFile := b, exit := .returned } := by
    rw [hn1, frames_split z _ n,
      decompressFile_frames z uninit schedD _ _ hsD
        (fun x hx => (hchunk x (chunkList_mem_length b x (List.mem_of_mem_take hx))).2.1)
        (fun x hx => (hchunk x (chunkList_mem_length b x (List.mem_of_mem_take hx))).2.2),
      hn2]
  refine ⟨_, _, hsizes, hcomp, hdec, ?_⟩
  simp only [main, hsizes, hcomp, hdec]

theorem storedZlib_roundtrip (x : List Byte) (hx : x.length ≤ CHUNK_SIZE) :
    ∃ c, storedZlib.compress (storedZlib.compressBound x.length) x = (Z_OK, c) ∧
      c.length < 2 ^ 32 ∧ storedZlib.uncompress x.length c = (Z_OK, x) :=
  ⟨x, by simp [Zlib.compress, storedZlib], Nat.lt_of_le_of_lt hx (by decide),
    by simp [Zlib.uncompress, storedZlib]⟩

theorem file_roundtrip_witness :
    ∃ artifact sizes, readSizes 2 (IfStream.opened [1, 2, 3]) [] = some sizes ∧
      compressFile storedZlib List.range 2 [1, 2, 3]
        = some { outFile := artifact, exit := .returned } ∧
      decompressFile storedZlib (fun _ => 0) (fun n => (List.range n).reverse) artifact sizes
        = { outFile := [1, 2, 3], exit := .returned } ∧
      main storedZlib (fun _ => 0) List.range (fun n => (List.range n).reverse) 2 [1, 2, 3]
        = some ({ outFile := artifact, exit := .returned },
            some { outFile := [1, 2, 3], exit := .returned }) :=
  file_roundtrip storedZlib (fun _ => 0) List.range (fun n => (List.range n).reverse) 2
    [1, 2, 3] (fun _ => List.Perm.refl _) (fun n => List.reverse_perm (List.range n))
    (by decide) storedZlib_roundtrip

/-! ## Frame count versus size-list count (claim C10) -/

/-- Claim C10 (frame count versus size-list count). Assume `compressChunk` succeeds with fewer than
`2 ^ 32` bytes on every block of at most `CHUNK_SIZE` bytes. Then for every file of `L` bytes
`compressFile` writes the frames of exactly `L / CHUNK_SIZE + 1` compressed chunks, while the
size list of `main` has exactly `ceil(L / CHUNK_SIZE)` entries. The two counts are equal when
`CHUNK_SIZE` does not divide `L`; when it does, the compressed chunks are those the size list
accounts for followed by one more, the compression of the empty chunk, and the frame reader of
`decompressFile` returns the former and stops with the frame of the latter unread. -/
theorem frame_count_vs_sizes (z : Zlib) (uninit : Nat → Nat) (sched : Nat → List Nat)
    (fuel : Nat) (b : List Byte)
    (hs : ∀ n, (sched n).Perm (List.range n))
    (hfuel : b.length / CHUNK_SIZE + 2 ≤ fuel)
    (hz : ∀ x : List Byte, x.length ≤ CHUNK_SIZE →
      ∃ c, compressChunk z x = .ok c ∧ c.length < 2 ^ 32) :
    ∃ (cs : List (List Byte)) (sizes : List Nat),
      compressFile z sched fuel b
        = some { outFile := (cs.map (fun c => bytesOfU32 c.length ++ c)).flatten,
                 exit := .returned } ∧
      cs.length = b.length / CHUNK_SIZE + 1 ∧
      readSizes fuel (IfStream.opened b) [] = some sizes ∧
      sizes.length = (b.length + CHUNK_SIZE - 1) / CHUNK_SIZE ∧
      (¬ CHUNK_SIZE ∣ b.length → sizes.length = cs.length) ∧
      (CHUNK_SIZE ∣ b.length → ∃ e, compressChunk z [] = .ok e ∧
        cs = cs.take sizes.length ++ [e] ∧
        (readFrames uninit 0 sizes.length
          (IfStream.opened (cs.map (fun c => bytesOfU32 c.length ++ c)).flatten) []).2
          = cs.take sizes.length ∧
        (readFrames uninit 0 sizes.length
          (IfStream.opened (cs.map (fun c => bytesOfU32 c.length ++ c)).flatten) []).1.data
          = bytesOfU32 e.length ++ e) := by
  have hchunk : ∀ x : List Byte, x.length ≤ CHUNK_SIZE →
      compressChunk z x = .ok (cchunk z x) ∧ (cchunk z x).length < 2 ^ 32 := by
    intro x hx
    obtain ⟨c, h1, h2⟩ := hz x hx
    rw [cchunk_of_ok z x c h1]
    exact ⟨h1, h2⟩
  have hlt : ∀ c ∈ (chunkList (b.length / CHUNK_SIZE) b).map (cchunk z),
      c.length < 2 ^ 32 := by
    intro c hc
    obtain ⟨x, hx, rfl⟩ := List.mem_map.mp hc
    exact (hchunk x (chunkList_mem_length b x hx)).2
  have hcomp := compressFile_ok z sched fuel b hs hfuel
    (fun x hx => (hchunk x (chunkList_mem_length b x hx)).1)
  rw [map_frame_of_lt _ hlt] at hcomp
  have hlen := sizeList_length (b.length / CHUNK_SIZE) b.length rfl
  refine ⟨(chunkList (b.length / CHUNK_SIZE) b).map (cchunk z),
    sizeList (b.length / CHUNK_SIZE) b.length, hcomp, ?_, readSizes_opened b fuel hfuel,
    ?_, ?_, ?_⟩
  · rw [List.length_map, chunkList_length]
  · rw [hlen, ceil_chunk]
  · intro hdvd
    rw [Nat.dvd_iff_mod_eq_zero] at hdvd
    rw [hlen, if_neg hdvd, List.length_map, chunkList_length]
  · intro hdvd
    have hmod := (Nat.dvd_iff_mod_eq_zero ..).mp hdvd
    rw [hlen, if_pos hmod]
    have hlast : b.drop (b.length / CHUNK_SIZE * CHUNK_SIZE) = [] :=
      List.drop_of_length_le (by rw [Nat.div_mul_cancel hdvd])
    have hsplit : (chunkList (b.length / CHUNK_SIZE) b).map (cchunk z)
        = ((chunkList (b.length / CHUNK_SIZE) b).map (cchunk z)).take (b.length / CHUNK_SIZE)
          ++ [cchunk z []] := by
      conv_lhs => rw [← List.take_append_drop (b.length / CHUNK_SIZE)
        (chunkList (b.length / CHUNK_SIZE) b)]
      rw [chunkList_drop, hlast, List.map_append, List.map_take, List.map_cons, List.map_nil]
    have hlt2 : ∀ c ∈ ((chunkList (b.length / CHUNK_SIZE) b).map (cchunk z)).take
        (b.length / CHUNK_SIZE), c.length < 2 ^ 32 :=
      fun c hc => hlt c (List.mem_of_mem_take hc)
    have hempty := hchunk [] (Nat.zero_le _)
    have hlen2 : (((chunkList (b.length / CHUNK_SIZE) b).map (cchunk z)).take
        (b.length / CHUNK_SIZE)).length = b.length / CHUNK_SIZE := by
      rw [List.length_take, List.length_map, chunkList_length]
      omega
    obtain ⟨g2, hg2⟩ := readFrames_frames uninit _ 0 0
      (bytesOfU32 (cchunk z []).length ++ cchunk z []) [] hlt2
    rw [hlen2, List.nil_append] at hg2
    have hstream : (((chunkList (b.length / CHUNK_SIZE) b).map (cchunk z)).map
        (fun c => bytesOfU32 c.length ++ c)).flatten
        = ((((chunkList (b.length / CHUNK_SIZE) b).map (cchunk z)).take
            (b.length / CHUNK_SIZE)).map frame).flatten
          ++ (bytesOfU32 (cchunk z []).length ++ cchunk z []) := by
      conv_lhs => rw [hsplit]
      rw [List.map_append, List.flatten_append, map_frame_of_lt _ hlt2]
      simp
    refine ⟨cchunk z [], hempty.1, hsplit, ?_, ?_⟩
    · rw [hstream, IfStream.opened, hg2]
    · rw [hstream, IfStream.opened, hg2]

theorem frame_count_vs_sizes_witness :
    ∃ (cs : List (List Byte)) (sizes : List Nat),
      compressFile storedZlib List.range 2 []
        = some { outFile := (cs.map (fun c => bytesOfU32 c.length ++ c)).flatten,
                 exit := .returned } ∧
      cs.length = ([] : List Byte).length / CHUNK_SIZE + 1 ∧
      readSizes 2 (IfStream.opened []) [] = some sizes ∧
      sizes.length = (([] : List Byte).length + CHUNK_SIZE - 1) / CHUNK_SIZE ∧
      (¬ CHUNK_SIZE ∣ ([] : List Byte).length → sizes.length = cs.length) ∧
      (CHUNK_SIZE ∣ ([] : List Byte).length → ∃ e, compressChunk storedZlib [] = .ok e ∧
        cs = cs.take sizes.length ++ [e] ∧
        (readFrames (fun _ => 0) 0 sizes.length
          (IfStream.opened (cs.map (fun c => bytesOfU32 c.length ++ c)).flatten) []).2
          = cs.take sizes.length ∧
        (readFrames (fun _ => 0) 0 sizes.length
          (IfStream.opened (cs.map (fun c => bytesOfU32 c.length ++ c)).flatten) []).1.data
          = bytesOfU32 e.length ++ e) :=
  frame_count_vs_sizes storedZlib (fun _ => 0) List.range 2 []
    (fun _ => List.Perm.refl _) (by decide)
    (fun x hx => ⟨x, storedZlib_compressChunk x, Nat.lt_of_le_of_lt hx (by decide)⟩)

end Task2
